import Mathlib

/-!
Verification development for the locally-authored sampling logic of a GNN
tutorial repository: a degree-weighted negative-edge sampler for link
prediction, a multi-layer neighbor sampler building bipartite dependency
blocks, and the contiguous seed-node partitioning used by the distributed
data loader.  Graph queries and tensor primitives owned by the external
libraries are modelled explicitly from the specification's contract for
them; the repository's own functions are translated statement by statement.
-/

/-- A directed multigraph: nodes are numbered 0, ..., numNodes - 1 and the
edge with identifier e is the pair edges[e] = (source, destination). -/
structure Graph where
  numNodes : ℕ
  edges : List (ℕ × ℕ)
deriving DecidableEq

/-- Error outcomes of the sampling primitives (invalid-argument style
failures raised by the underlying libraries). -/
inductive SampleErr
  | invalidArgument
  | invalidDistribution
  | invalidFanout
deriving DecidableEq

/-- In-degree of node v: the number of edges whose destination is v. -/
def inDeg (g : Graph) (v : ℕ) : ℕ :=
  (g.edges.filter (fun e => e.2 = v)).length

/-- Modelled from the spec: the graph provider's in-degree-per-node query
(g.in_degrees() in the source), one entry per node of the graph. -/
def Graph.in_degrees (g : Graph) : List ℕ :=
  (List.range g.numNodes).map (inDeg g)

/-- Modelled from the spec: the graph provider's edge-endpoint lookup
(g.find_edges(eids) in the source); fails on an out-of-range edge id. -/
def Graph.find_edges (g : Graph) (eids : List ℕ) : Except SampleErr (List (ℕ × ℕ)) :=
  if eids.all (fun e => e < g.edges.length) then
    .ok (eids.map (fun e => g.edges.getD e (0, 0)))
  else .error .invalidArgument

/-- Modelled from the spec: tensor repeat_interleave — each element of xs
repeated k times in place, preserving order. -/
def repeat_interleave (xs : List ℕ) (k : ℕ) : List ℕ :=
  (xs.map (fun x => List.replicate k x)).flatten

/-- Inverse-CDF index selection: walk the weight list, returning the first
index j such that the remaining mass u falls inside weight j's interval. -/
noncomputable def pickIdx : List ℝ → ℝ → ℕ
  | [], _ => 0
  | w :: ws, u => if u < w then 0 else pickIdx ws (u - w) + 1

/-- Modelled from the spec: weighted sampling with replacement
(weights.multinomial(n, replacement=True) in the source).  Draw i consumes
the i-th value of the external uniform random stream rng (each value in
[0,1)) and selects an index with probability proportional to its weight;
fails if asked for no samples or if the total weight is not positive. -/
noncomputable def multinomial (w : List ℝ) (n : ℕ) (rng : ℕ → ℝ) : Except SampleErr (List ℕ) :=
  if n = 0 then .error .invalidArgument
  else if w.sum ≤ 0 then .error .invalidDistribution
  else .ok ((List.range n).map (fun i => pickIdx w (rng i * w.sum)))

/-- State of the notebook's NegativeSampler: the fan-out k and the weight
vector, both fixed at construction. -/
structure NegativeSampler where
  k : ℤ
  weights : List ℝ

/-- The per-node sampling weight indegree^0.75 used by the negative
sampler (in_degrees().float() ** 0.75 in the source). -/
noncomputable def negWeight (d : ℕ) : ℝ :=
  (d : ℝ) ^ (0.75 : ℝ)

/-- NegativeSampler.__init__(g, k): stores k and the degree-weighted
vector; performs no validation of k or of the graph. -/
noncomputable def NegativeSampler.init (g : Graph) (k : ℤ) : NegativeSampler :=
  { k := k, weights := g.in_degrees.map negWeight }

/-- NegativeSampler.__call__(g, eids): sources of the positive edges, each
repeated k times, paired with len(src) weighted draws over the stored
weight vector.  Negative repeat counts and the failure cases of the
underlying multinomial surface as errors here, at call time. -/
noncomputable def NegativeSampler.call (s : NegativeSampler) (g : Graph) (eids : List ℕ)
    (rng : ℕ → ℝ) : Except SampleErr (List ℕ × List ℕ) :=
  match g.find_edges eids with
  | .error e => .error e
  | .ok pairs =>
    if s.k < 0 then .error .invalidArgument
    else
      let src := repeat_interleave (pairs.map (fun p => p.1)) s.k.toNat
      match multinomial s.weights src.length rng with
      | .error e => .error e
      | .ok dst => .ok (src, dst)

/-- NegativeSampler.__call__ with the sampler state and the graph threaded
through explicitly, returning them alongside the result; the translation
of the method body touches neither, so both come back unchanged. -/
noncomputable def NegativeSampler.callS (s : NegativeSampler) (g : Graph) (eids : List ℕ)
    (rng : ℕ → ℝ) : Except SampleErr ((List ℕ × List ℕ) × NegativeSampler × Graph) :=
  match g.find_edges eids with
  | .error e => .error e
  | .ok pairs =>
    if s.k < 0 then .error .invalidArgument
    else
      let src := repeat_interleave (pairs.map (fun p => p.1)) s.k.toNat
      match multinomial s.weights src.length rng with
      | .error e => .error e
      | .ok dst => .ok ((src, dst), s, g)

/-- The incoming edges of node v: the (source, destination) pairs whose
destination is v (the node's predecessor edges). -/
def inEdges (g : Graph) (v : ℕ) : List (ℕ × ℕ) :=
  g.edges.filter (fun e => e.2 = v)

/-- A fan-out value is valid when it is the take-all sentinel -1 or a
positive bound. -/
def validFanout (f : ℤ) : Prop :=
  f = -1 ∨ 1 ≤ f

instance (f : ℤ) : Decidable (validFanout f) := by
  unfold validFanout
  infer_instance

/-- Without-replacement selection of f elements from xs, driven by the
external integer random stream rng starting at counter c; returns the
selection together with the advanced counter. -/
def selectWR (xs : List (ℕ × ℕ)) : ℕ → (ℕ → ℕ) → ℕ → List (ℕ × ℕ) × ℕ
  | 0, _, c => ([], c)
  | f + 1, rng, c =>
    if xs.isEmpty then ([], c)
    else
      let i := rng c % xs.length
      let rest := selectWR (xs.eraseIdx i) f rng (c + 1)
      (xs.getD i (0, 0) :: rest.1, rest.2)

/-- Modelled from the spec: one node's neighborhood sample under an
already-validated fan-out — all incoming edges when f is the take-all
sentinel or bounds the predecessor count, otherwise f of them chosen
without replacement. -/
def nodeSample (g : Graph) (v : ℕ) (f : ℤ) (rng : ℕ → ℕ) (c : ℕ) : List (ℕ × ℕ) × ℕ :=
  if f = -1 ∨ (inEdges g v).length ≤ f.toNat then (inEdges g v, c)
  else selectWR (inEdges g v) f.toNat rng c

/-- Per-node neighborhood sampling folded over a frontier, threading the
random-stream counter left to right. -/
def frontierFold (g : Graph) : List ℕ → ℤ → (ℕ → ℕ) → ℕ → List (ℕ × ℕ) × ℕ
  | [], _, _, c => ([], c)
  | v :: vs, f, rng, c =>
    let hd := nodeSample g v f rng c
    let tl := frontierFold g vs f rng hd.2
    (hd.1 ++ tl.1, tl.2)

/-- Modelled from the spec: dgl.sampling.sample_neighbors(g, vs, f) — for
every frontier node take up to f incoming edges uniformly without
replacement (all of them when f is the take-all sentinel -1); an
invalid-argument error is raised for any other non-positive fan-out. -/
def sample_neighbors (g : Graph) (vs : List ℕ) (f : ℤ) (rng : ℕ → ℕ) (c : ℕ) :
    Except SampleErr (List (ℕ × ℕ) × ℕ) :=
  if validFanout f then .ok (frontierFold g vs f rng c)
  else .error .invalidFanout

/-- State of the notebook's MultiLayerNeighborSampler: the per-layer
fan-out list, stored unvalidated at construction. -/
structure MultiLayerNeighborSampler where
  fanouts : List ℤ
deriving DecidableEq

/-- MultiLayerNeighborSampler.sample_frontier(layer_id, g, seed_nodes):
looks up the layer's fan-out and delegates to the library's
sample_neighbors. -/
def MultiLayerNeighborSampler.sample_frontier (s : MultiLayerNeighborSampler)
    (layer_id : ℕ) (g : Graph) (seed_nodes : List ℕ) (rng : ℕ → ℕ) (c : ℕ) :
    Except SampleErr (List (ℕ × ℕ) × ℕ) :=
  sample_neighbors g seed_nodes (s.fanouts.getD layer_id 0) rng c

/-- One bipartite dependency block: messages flow along edges from the
srcNodes layer to the dstNodes layer. -/
structure Block where
  srcNodes : List ℕ
  dstNodes : List ℕ
  edges : List (ℕ × ℕ)
deriving DecidableEq

/-- Modelled from the spec: the block-building loop of the library's
BlockSampler — layer indices are processed from the output layer l = L-1
backward to 0; each step samples the frontier's neighborhoods, forms the
block whose destination set is the frontier and whose source set is the
frontier together with the sampled edges' sources (the new, larger node
set), and recurses on that source set.  Blocks come back in
input-to-output order. -/
def sampleBlocksAux (s : MultiLayerNeighborSampler) (g : Graph) (rng : ℕ → ℕ) :
    ℕ → List ℕ → ℕ → Except SampleErr (List Block × ℕ)
  | 0, _, c => .ok ([], c)
  | l + 1, frontier, c =>
    match s.sample_frontier l g frontier rng c with
    | .error e => .error e
    | .ok r =>
      let newFrontier := (frontier ++ r.1.map (fun e => e.1)).dedup
      match sampleBlocksAux s g rng l newFrontier r.2 with
      | .error e => .error e
      | .ok r2 =>
        .ok (r2.1 ++ [{ srcNodes := newFrontier, dstNodes := frontier, edges := r.1 }], r2.2)

/-- Modelled from the spec: BlockSampler.sample_blocks — build one block
per configured layer, starting from the seed nodes, and return them in
the order the model consumes them (input-nearest first). -/
def MultiLayerNeighborSampler.sample_blocks (s : MultiLayerNeighborSampler) (g : Graph)
    (seed_nodes : List ℕ) (rng : ℕ → ℕ) : Except SampleErr (List Block) :=
  match sampleBlocksAux s g rng s.fanouts.length seed_nodes 0 with
  | .error e => .error e
  | .ok (bs, _) => .ok bs

/-- The seed-node partitioning step of create_dataloader: worker rank r
of world_size w keeps nids[offset : offset + size] where
size = len(nids) // w and offset = size * r. -/
def createDataloaderNids (nids : List ℕ) (world_size rank : ℕ) : List ℕ :=
  (nids.drop (rank * (nids.length / world_size))).take (nids.length / world_size)

/-- Sum of the first j weights: the lower endpoint of index j's selection
interval in the inverse-CDF walk. -/
def preSum (w : List ℝ) (j : ℕ) : ℝ :=
  (w.take j).sum

/-- A two-node graph with one edge in each direction; both nodes have
in-degree 1. -/
def twoCycle : Graph :=
  { numNodes := 2, edges := [(0, 1), (1, 0)] }

/-- The graph with no nodes and no edges. -/
def nodelessGraph : Graph :=
  { numNodes := 0, edges := [] }

/-- The five-node path 0 → 1 → 2 → 3 → 4 used as a concrete scenario. -/
def path5 : Graph :=
  { numNodes := 5, edges := [(0, 1), (1, 2), (2, 3), (3, 4)] }

/-- A three-node graph in which node 0 has the two predecessors 1 and 2. -/
def vee : Graph :=
  { numNodes := 3, edges := [(1, 0), (2, 0)] }

theorem flatten_partition (l : List ℕ) (s : ℕ) :
    ∀ m : ℕ, ((List.range m).map (fun r => (l.drop (r * s)).take s)).flatten
      = l.take (m * s) := by
  intro m
  induction m with
  | zero => simp
  | succ m ih =>
    rw [List.range_succ, List.map_append, List.flatten_append, ih]
    simp only [List.map_cons, List.map_nil, List.flatten_cons, List.flatten_nil,
      List.append_nil]
    rw [Nat.succ_mul, List.take_add]

/-- C7 counterexample: with 5 seed nodes and 2 workers, the two contiguous
ranges cover only the first 4 seed nodes; seed node 4 is assigned to no
worker, so the ranges do not partition the seed-node set. -/
theorem createDataloader_partition_cex :
    ((List.range 2).map (createDataloaderNids [0, 1, 2, 3, 4] 2)).flatten = [0, 1, 2, 3]
    ∧ 4 ∈ [0, 1, 2, 3, 4]
    ∧ ¬ (∃ r, r < 2 ∧ 4 ∈ createDataloaderNids [0, 1, 2, 3, 4] 2 r) := by
  refine ⟨by decide, by decide, ?_⟩
  rintro ⟨r, hr, hmem⟩
  interval_cases r <;> revert hmem <;> decide

/-- C7 (amended): worker rank r receives the contiguous range
nids[r*(n//w) : (r+1)*(n//w)] of length n//w; the ranges over all w ranks
concatenate, in rank order, to exactly the first w*(n//w) seed nodes, so
they partition the seed-node set precisely when w divides n — otherwise
the trailing n mod w seed nodes are assigned to no worker. -/
theorem createDataloader_partition_amended (nids : List ℕ) (w : ℕ) (hw : 0 < w) :
    (∀ r, createDataloaderNids nids w r
        = (nids.take ((r + 1) * (nids.length / w))).drop (r * (nids.length / w)))
    ∧ ((List.range w).map (createDataloaderNids nids w)).flatten
        = nids.take (w * (nids.length / w))
    ∧ (w ∣ nids.length → ((List.range w).map (createDataloaderNids nids w)).flatten = nids)
    ∧ (∀ r, r < w → (createDataloaderNids nids w r).length = nids.length / w) := by
  have hflat : ((List.range w).map (createDataloaderNids nids w)).flatten
      = nids.take (w * (nids.length / w)) := by
    unfold createDataloaderNids
    exact flatten_partition nids (nids.length / w) w
  refine ⟨?_, hflat, ?_, ?_⟩
  · intro r
    rw [createDataloaderNids, List.drop_take, Nat.succ_mul, Nat.add_sub_cancel_left]
  · intro hdvd
    rw [hflat, Nat.mul_div_cancel' hdvd, List.take_length]
  · intro r hr
    rw [createDataloaderNids, List.length_take, List.length_drop]
    have h2 : w * (nids.length / w) ≤ nids.length := by
      rw [Nat.mul_comm]
      exact Nat.div_mul_le_self _ _
    have hle : (r + 1) * (nids.length / w) ≤ nids.length :=
      le_trans (Nat.mul_le_mul_right _ hr) h2
    rw [Nat.succ_mul] at hle
    omega

/-- C7 amended witness: the amended partition facts instantiated at the
concrete seed list [0,1,2,3,4] with 2 workers. -/
theorem createDataloader_partition_amended_witness :
    ((List.range 2).map (createDataloaderNids [0, 1, 2, 3, 4] 2)).flatten
      = [0, 1, 2, 3, 4].take (2 * ([0, 1, 2, 3, 4].length / 2)) :=
  (createDataloader_partition_amended [0, 1, 2, 3, 4] 2 (by decide)).2.1

theorem repeat_interleave_zero (xs : List ℕ) : repeat_interleave xs 0 = [] := by
  induction xs with
  | nil => rfl
  | cons x xs ih =>
    simp only [repeat_interleave, List.map_cons, List.flatten_cons, List.replicate_zero,
      List.nil_append] at ih ⊢
    exact ih

theorem length_repeat_interleave (xs : List ℕ) (k : ℕ) :
    (repeat_interleave xs k).length = xs.length * k := by
  induction xs with
  | nil => simp [repeat_interleave]
  | cons x xs ih =>
    simp only [repeat_interleave, List.map_cons, List.flatten_cons, List.length_append,
      List.length_replicate, List.length_cons] at ih ⊢
    rw [ih, Nat.add_mul, Nat.one_mul, Nat.add_comm]

theorem multinomial_err_of_sum_nonpos (w : List ℝ) (n : ℕ) (rng : ℕ → ℝ)
    (h : w.sum ≤ 0) : ∃ e, multinomial w n rng = .error e := by
  unfold multinomial
  by_cases hn : n = 0
  · exact ⟨.invalidArgument, by simp [hn]⟩
  · exact ⟨.invalidDistribution, by simp [hn, h]⟩

/-- C3 counterexample: constructing the negative sampler with k = 0 (< 1)
on the zero-node graph succeeds and produces a sampler storing k = 0 and
an empty weight vector — no invalid-argument error is raised at
construction. -/
theorem negInit_no_validation_cex :
    (NegativeSampler.init nodelessGraph 0).k = 0
    ∧ (NegativeSampler.init nodelessGraph 0).weights = [] :=
  ⟨rfl, rfl⟩

/-- C3 (amended): NegativeSampler.__init__ performs no validation — for
every graph and every k (including k < 1 and zero-node graphs)
construction succeeds, storing k and a weight vector of one entry per
node; the invalid configurations k < 1 and a zero-node graph are
surfaced only at call time, when __call__ reaches the underlying
multinomial (or repeat) primitives, which fail there. -/
theorem negInit_no_validation_amended :
    (∀ (g : Graph) (k : ℤ), (NegativeSampler.init g k).k = k
        ∧ (NegativeSampler.init g k).weights.length = g.numNodes)
    ∧ (∀ (g0 g : Graph) (k : ℤ) (eids : List ℕ) (rng : ℕ → ℝ),
        k < 1 ∨ g0.numNodes = 0 →
        ∃ e, (NegativeSampler.init g0 k).call g eids rng = .error e) := by
  constructor
  · intro g k
    exact ⟨rfl, by simp [NegativeSampler.init, Graph.in_degrees]⟩
  · intro g0 g k eids rng h
    cases hfe : g.find_edges eids with
    | error e =>
      exact ⟨e, by simp [NegativeSampler.call, hfe]⟩
    | ok pairs =>
      have hki : (NegativeSampler.init g0 k).k = k := rfl
      by_cases hk : k < 0
      · exact ⟨.invalidArgument, by simp [NegativeSampler.call, hfe, hki, hk]⟩
      · rcases h with hk1 | hg0
        · have hk0 : k.toNat = 0 := by omega
          exact ⟨.invalidArgument, by
            simp [NegativeSampler.call, hfe, hki, hk, hk0, repeat_interleave_zero, multinomial]⟩
        · have hw : (NegativeSampler.init g0 k).weights = [] := by
            simp [NegativeSampler.init, Graph.in_degrees, hg0]
          obtain ⟨e, he⟩ := multinomial_err_of_sum_nonpos []
            (repeat_interleave (pairs.map (fun p => p.1)) k.toNat).length rng (by simp)
          exact ⟨e, by simp [NegativeSampler.call, hfe, hki, hk, hw, he]⟩

/-- C3 amended witness: with k = 0 on the zero-node graph, construction
succeeds and the first call fails. -/
theorem negInit_no_validation_amended_witness :
    ∃ e, (NegativeSampler.init nodelessGraph 0).call nodelessGraph [] (fun _ => 0) = .error e :=
  negInit_no_validation_amended.2 nodelessGraph nodelessGraph 0 [] (fun _ => 0)
    (Or.inl (by decide))

theorem repeat_interleave_slice (k : ℕ) :
    ∀ (xs : List ℕ) (i : ℕ), i < xs.length →
      ((repeat_interleave xs k).drop (i * k)).take k = List.replicate k (xs.getD i 0) := by
  intro xs
  induction xs with
  | nil => intro i hi; simp at hi
  | cons x xs ih =>
    intro i hi
    cases i with
    | zero =>
      simp only [repeat_interleave, List.map_cons, List.flatten_cons, Nat.zero_mul,
        List.drop_zero, List.getD_cons_zero]
      have h := List.take_left (List.replicate k x)
        ((xs.map (fun y => List.replicate k y)).flatten)
      simpa using h
    | succ i =>
      simp only [repeat_interleave, List.map_cons, List.flatten_cons, List.getD_cons_succ]
      rw [Nat.succ_mul, Nat.add_comm]
      have h : (List.replicate k x ++ (xs.map (fun y => List.replicate k y)).flatten).drop
          ((List.replicate k x).length + i * k)
          = ((xs.map (fun y => List.replicate k y)).flatten).drop (i * k) :=
        List.drop_append (i * k)
      rw [List.length_replicate] at h
      rw [h]
      exact ih i (by simpa using Nat.lt_of_succ_lt_succ hi)

/-- C1: whenever NegativeSampler.__call__ succeeds on a batch of positive
edge ids, it returns two sequences of length batch_size * k, and the i-th
k-slice of src_neg consists of k copies of the i-th positive edge's source
node, in batch order. -/
theorem negCall_output_shape (g0 g : Graph) (k : ℤ) (eids : List ℕ) (rng : ℕ → ℝ)
    (hk : 1 ≤ k) (hb : 1 ≤ eids.length)
    (hvalid : ∀ e ∈ eids, e < g.edges.length)
    (hsum : 0 < (NegativeSampler.init g0 k).weights.sum) :
    ∃ src dst, (NegativeSampler.init g0 k).call g eids rng = .ok (src, dst)
      ∧ src.length = eids.length * k.toNat
      ∧ dst.length = eids.length * k.toNat
      ∧ ∀ i, i < eids.length →
          (src.drop (i * k.toNat)).take k.toNat
            = List.replicate k.toNat ((g.edges.getD (eids.getD i 0) (0, 0)).1) := by
  have hki : (NegativeSampler.init g0 k).k = k := rfl
  have hfe : g.find_edges eids = .ok (eids.map (fun e => g.edges.getD e (0, 0))) := by
    simp only [Graph.find_edges, List.all_eq_true, decide_eq_true_eq, if_pos hvalid]
  have hnotneg : ¬ k < 0 := by omega
  set srcs : List ℕ := eids.map (fun e => (g.edges.getD e (0, 0)).1) with hsrcs
  have hmapmap : (eids.map (fun e => g.edges.getD e (0, 0))).map (fun p => p.1) = srcs := by
    rw [List.map_map]
    rfl
  have hsrclen : (repeat_interleave srcs k.toNat).length = eids.length * k.toNat := by
    rw [length_repeat_interleave, hsrcs, List.length_map]
  have hn0 : (repeat_interleave srcs k.toNat).length ≠ 0 := by
    rw [hsrclen]
    have hk1 : 1 ≤ k.toNat := by omega
    exact Nat.mul_ne_zero (by omega) (by omega)
  have hmn : multinomial (NegativeSampler.init g0 k).weights
      (repeat_interleave srcs k.toNat).length rng
      = .ok ((List.range (repeat_interleave srcs k.toNat).length).map
          (fun i => pickIdx (NegativeSampler.init g0 k).weights
            (rng i * (NegativeSampler.init g0 k).weights.sum))) := by
    rw [multinomial, if_neg hn0, if_neg (not_le_of_lt hsum)]
  refine ⟨repeat_interleave srcs k.toNat,
    (List.range (repeat_interleave srcs k.toNat).length).map
      (fun i => pickIdx (NegativeSampler.init g0 k).weights
        (rng i * (NegativeSampler.init g0 k).weights.sum)), ?_, hsrclen, ?_, ?_⟩
  · show NegativeSampler.call _ _ _ _ = _
    rw [NegativeSampler.call, hfe]
    simp only [hki, if_neg hnotneg, hmapmap, hmn]
  · rw [List.length_map, List.length_range, hsrclen]
  · intro i hi
    have hslice := repeat_interleave_slice k.toNat srcs i (by rw [hsrcs, List.length_map]; exact hi)
    rw [hslice, hsrcs]
    congr 1
    rw [List.getD_eq_getElem _ _ (by rw [List.length_map]; exact hi), List.getElem_map,
      List.getD_eq_getElem _ _ hi]

theorem twoCycle_weights : (NegativeSampler.init twoCycle 1).weights = [1, 1] := by
  show (Graph.in_degrees twoCycle).map negWeight = [1, 1]
  have h1 : Graph.in_degrees twoCycle = [1, 1] := by decide
  rw [h1]
  simp [negWeight]

theorem twoCycle_sum_pos : 0 < (NegativeSampler.init twoCycle 1).weights.sum := by
  rw [twoCycle_weights]
  norm_num

/-- C1 witness: the shape facts instantiated on the two-node cycle with
k = 1 and the single positive edge 0 = (0, 1). -/
theorem negCall_output_shape_witness :
    ∃ src dst, (NegativeSampler.init twoCycle 1).call twoCycle [0] (fun _ => 0) = .ok (src, dst)
      ∧ src.length = [0].length * (1 : ℤ).toNat
      ∧ dst.length = [0].length * (1 : ℤ).toNat
      ∧ ∀ i, i < [0].length →
          (src.drop (i * (1 : ℤ).toNat)).take (1 : ℤ).toNat
            = List.replicate (1 : ℤ).toNat ((twoCycle.edges.getD ([0].getD i 0) (0, 0)).1) :=
  negCall_output_shape twoCycle twoCycle 1 [0] (fun _ => 0) (by decide) (by decide)
    (by decide) twoCycle_sum_pos

theorem preSum_nonneg (w : List ℝ) (hw : ∀ y ∈ w, 0 ≤ y) (j : ℕ) : 0 ≤ preSum w j :=
  List.sum_nonneg (fun y hy => hw y (List.mem_of_mem_take hy))

theorem preSum_cons_succ (a : ℝ) (ws : List ℝ) (j : ℕ) :
    preSum (a :: ws) (j + 1) = a + preSum ws j := by
  simp [preSum, List.take_succ_cons]

theorem pickIdx_eq_iff (w : List ℝ) :
    ∀ (j : ℕ) (x : ℝ), (∀ y ∈ w, 0 ≤ y) → 0 ≤ x → j < w.length →
      (pickIdx w x = j ↔ preSum w j ≤ x ∧ x < preSum w j + w.getD j 0) := by
  induction w with
  | nil => intro j x _ _ hj; simp at hj
  | cons a ws ih =>
    intro j x hw hx hj
    have ha : 0 ≤ a := hw a (List.mem_cons_self a ws)
    have hws : ∀ y ∈ ws, 0 ≤ y := fun y hy => hw y (List.mem_cons_of_mem a hy)
    cases j with
    | zero =>
      simp only [preSum, List.take_zero, List.sum_nil, List.getD_cons_zero, zero_add]
      constructor
      · intro hpick
        refine ⟨hx, ?_⟩
        by_contra hlt
        rw [pickIdx, if_neg (by exact fun h => hlt h)] at hpick
        exact Nat.succ_ne_zero _ hpick
      · rintro ⟨_, hxa⟩
        rw [pickIdx, if_pos hxa]
    | succ j =>
      by_cases hxa : x < a
      · constructor
        · intro hpick
          rw [pickIdx, if_pos hxa] at hpick
          exact absurd hpick.symm (Nat.succ_ne_zero j)
        · rintro ⟨hge, _⟩
          exfalso
          have hpre : 0 ≤ preSum ws j := preSum_nonneg ws hws j
          rw [preSum_cons_succ] at hge
          linarith
      · have hx2 : 0 ≤ x - a := by
          push_neg at hxa
          linarith
        have hj2 : j < ws.length := by simpa using Nat.lt_of_succ_lt_succ hj
        have hIH := ih j (x - a) hws hx2 hj2
        rw [pickIdx, if_neg hxa, preSum_cons_succ]
        simp only [List.getD_cons_succ]
        constructor
        · intro h
          have h2 := hIH.mp (Nat.succ_injective h)
          exact ⟨by linarith [h2.1], by linarith [h2.2]⟩
        · rintro ⟨h1, h2⟩
          have h3 := hIH.mpr ⟨by linarith, by linarith⟩
          omega

/-- C2: the weight vector of the negative sampler is computed once at
construction, has one non-negative entry indegree(v)^0.75 per node of the
construction graph, is left unchanged by calls, and each negative
destination is drawn with replacement by inverse-CDF selection over that
fixed vector: draw i consumes uniform value i of the stream, and it
selects index j exactly when its scaled value lands in the subinterval of
length weight(j) allotted to j — i.e. with probability proportional to
indegree(j)^0.75. -/
theorem negSampler_weight_distribution (g : Graph) (k : ℤ) :
    ((NegativeSampler.init g k).weights.length = g.numNodes)
    ∧ (∀ x ∈ (NegativeSampler.init g k).weights, 0 ≤ x)
    ∧ (∀ v, v < g.numNodes →
        (NegativeSampler.init g k).weights.getD v 0 = ((inDeg g v : ℝ)) ^ (0.75 : ℝ))
    ∧ (∀ (g2 : Graph) (eids : List ℕ) (rng : ℕ → ℝ)
        (out : (List ℕ × List ℕ) × NegativeSampler × Graph),
        (NegativeSampler.init g k).callS g2 eids rng = .ok out →
        out.2.1.weights = (NegativeSampler.init g k).weights)
    ∧ (∀ (n : ℕ) (rng : ℕ → ℝ) (i : ℕ), i < n →
        ∀ ds, multinomial (NegativeSampler.init g k).weights n rng = .ok ds →
          ds.getD i 0 = pickIdx (NegativeSampler.init g k).weights
            (rng i * (NegativeSampler.init g k).weights.sum))
    ∧ (∀ (x : ℝ) (j : ℕ), 0 ≤ x → j < (NegativeSampler.init g k).weights.length →
        (pickIdx (NegativeSampler.init g k).weights x = j ↔
          preSum (NegativeSampler.init g k).weights j ≤ x
          ∧ x < preSum (NegativeSampler.init g k).weights j
              + (NegativeSampler.init g k).weights.getD j 0)) := by
  have hlen : (NegativeSampler.init g k).weights.length = g.numNodes := by
    simp [NegativeSampler.init, Graph.in_degrees]
  have hnn : ∀ x ∈ (NegativeSampler.init g k).weights, 0 ≤ x := by
    intro x hx
    obtain ⟨d, _, rfl⟩ := List.mem_map.mp hx
    exact Real.rpow_nonneg (Nat.cast_nonneg d) _
  refine ⟨hlen, hnn, ?_, ?_, ?_, ?_⟩
  · intro v hv
    show (g.in_degrees.map negWeight).getD v 0 = _
    have hmm : g.in_degrees.map negWeight
        = (List.range g.numNodes).map (fun u => negWeight (inDeg g u)) := by
      rw [Graph.in_degrees, List.map_map]
      rfl
    rw [hmm, List.getD_eq_getElem _ _ (by simpa using hv), List.getElem_map,
      List.getElem_range, negWeight]
  · intro g2 eids rng out hout
    rcases hfe : g2.find_edges eids with e | pairs <;>
      simp only [NegativeSampler.callS, hfe] at hout
    · exact absurd hout (by simp)
    · by_cases hk0 : (NegativeSampler.init g k).k < 0
      · rw [if_pos hk0] at hout
        exact absurd hout (by simp)
      · rw [if_neg hk0] at hout
        rcases hmn : multinomial (NegativeSampler.init g k).weights
            (repeat_interleave (pairs.map (fun p => p.1))
              (NegativeSampler.init g k).k.toNat).length rng with e | ds <;>
          simp only [hmn] at hout
        · exact absurd hout (by simp)
        · cases Except.ok.inj hout
          rfl
  · intro n rng i hi ds hds
    rw [multinomial] at hds
    by_cases hn : n = 0
    · rw [if_pos hn] at hds
      exact absurd hds (by simp)
    · rw [if_neg hn] at hds
      by_cases hs : (NegativeSampler.init g k).weights.sum ≤ 0
      · rw [if_pos hs] at hds
        exact absurd hds (by simp)
      · rw [if_neg hs] at hds
        have hds2 := Except.ok.inj hds
        rw [← hds2]
        have hi2 : i < (List.range n).length := by simpa using hi
        rw [List.getD_eq_getElem _ _ (by simpa using hi2), List.getElem_map,
          List.getElem_range]
  · intro x j hx hj
    exact pickIdx_eq_iff (NegativeSampler.init g k).weights j x hnn hx hj

/-- C2 witness: the inverse-CDF characterization instantiated on the
two-node cycle at uniform value 0 and index 0. -/
theorem negSampler_weight_distribution_witness :
    pickIdx (NegativeSampler.init twoCycle 1).weights 0 = 0 ↔
      preSum (NegativeSampler.init twoCycle 1).weights 0 ≤ 0
      ∧ (0 : ℝ) < preSum (NegativeSampler.init twoCycle 1).weights 0
          + (NegativeSampler.init twoCycle 1).weights.getD 0 0 :=
  (negSampler_weight_distribution twoCycle 1).2.2.2.2.2 0 0 (le_refl 0)
    (by rw [twoCycle_weights]; decide)

theorem pickIdx_lt_length (w : List ℝ) :
    ∀ x : ℝ, 0 ≤ x → x < w.sum → pickIdx w x < w.length := by
  induction w with
  | nil =>
    intro x hx hlt
    rw [List.sum_nil] at hlt
    exact absurd hlt (by linarith)
  | cons a ws ih =>
    intro x hx hlt
    rw [pickIdx]
    by_cases hxa : x < a
    · rw [if_pos hxa]
      simp
    · rw [if_neg hxa]
      push_neg at hxa
      have h2 := ih (x - a) (by linarith) (by rw [List.sum_cons] at hlt; linarith)
      simpa using Nat.succ_lt_succ h2

/-- C10: every negative destination returned by a successful call is a
valid node id of the construction graph — an index into the length-N
weight vector fixed at construction — even when the graph passed to
__call__ differs from the construction graph. -/
theorem negCall_dst_in_bounds (g0 g : Graph) (k : ℤ) (eids : List ℕ) (rng : ℕ → ℝ)
    (hrng : ∀ i, 0 ≤ rng i ∧ rng i < 1) :
    ∀ src dst, (NegativeSampler.init g0 k).call g eids rng = .ok (src, dst) →
      ∀ d ∈ dst, d < g0.numNodes := by
  intro src dst hcall d hd
  have hlen : (NegativeSampler.init g0 k).weights.length = g0.numNodes := by
    simp [NegativeSampler.init, Graph.in_degrees]
  rcases hfe : g.find_edges eids with e | pairs <;>
    simp only [NegativeSampler.call, hfe] at hcall
  · exact absurd hcall (by simp)
  · by_cases hk0 : (NegativeSampler.init g0 k).k < 0
    · rw [if_pos hk0] at hcall
      exact absurd hcall (by simp)
    · rw [if_neg hk0] at hcall
      rcases hmn : multinomial (NegativeSampler.init g0 k).weights
          (repeat_interleave (pairs.map (fun p => p.1))
            (NegativeSampler.init g0 k).k.toNat).length rng with e | ds <;>
        simp only [hmn] at hcall
      · exact absurd hcall (by simp)
      · cases Except.ok.inj hcall
        rw [multinomial] at hmn
        by_cases hn : (repeat_interleave (pairs.map (fun p => p.1))
            (NegativeSampler.init g0 k).k.toNat).length = 0
        · rw [if_pos hn] at hmn
          exact absurd hmn (by simp)
        · rw [if_neg hn] at hmn
          by_cases hs : (NegativeSampler.init g0 k).weights.sum ≤ 0
          · rw [if_pos hs] at hmn
            exact absurd hmn (by simp)
          · rw [if_neg hs] at hmn
            cases Except.ok.inj hmn
            obtain ⟨i, _, rfl⟩ := List.mem_map.mp hd
            push_neg at hs
            have h1 : 0 ≤ rng i * (NegativeSampler.init g0 k).weights.sum :=
              mul_nonneg (hrng i).1 (le_of_lt hs)
            have h2 : rng i * (NegativeSampler.init g0 k).weights.sum
                < (NegativeSampler.init g0 k).weights.sum :=
              mul_lt_of_lt_one_left hs (hrng i).2
            have h3 := pickIdx_lt_length (NegativeSampler.init g0 k).weights _ h1 h2
            exact hlen ▸ h3

theorem twoCycle_call_eval :
    (NegativeSampler.init twoCycle 1).call twoCycle [0] (fun _ => 0) = .ok ([0], [0]) := by
  have hfe : twoCycle.find_edges [0] = .ok [(0, 1)] := rfl
  norm_num [NegativeSampler.call, hfe, twoCycle_weights, repeat_interleave, multinomial,
    pickIdx, show (NegativeSampler.init twoCycle 1).k = 1 from rfl]
  simp [negWeight, show inDeg twoCycle 0 = 1 from rfl, show inDeg twoCycle 1 = 1 from rfl]

/-- C10 witness: the bound instantiated on the two-node cycle, where the
successful call returns destination 0 < 2. -/
theorem negCall_dst_in_bounds_witness : 0 < twoCycle.numNodes :=
  negCall_dst_in_bounds twoCycle twoCycle 1 [0] (fun _ => 0)
    (fun _ => ⟨le_refl 0, zero_lt_one⟩) [0] [0] twoCycle_call_eval 0 (by decide)

theorem twoCycle_callS_eval :
    (NegativeSampler.init twoCycle 1).callS twoCycle [0] (fun _ => 0)
      = .ok (([0], [0]), NegativeSampler.init twoCycle 1, twoCycle) := by
  have hfe : twoCycle.find_edges [0] = .ok [(0, 1)] := rfl
  norm_num [NegativeSampler.callS, hfe, twoCycle_weights, repeat_interleave, multinomial,
    pickIdx, show (NegativeSampler.init twoCycle 1).k = 1 from rfl]
  simp [negWeight, show inDeg twoCycle 0 = 1 from rfl, show inDeg twoCycle 1 = 1 from rfl]

theorem twoCycle_call_half :
    (NegativeSampler.init twoCycle 1).call twoCycle [0] (fun _ => (1 : ℝ) / 2)
      = .ok ([0], [1]) := by
  have hfe : twoCycle.find_edges [0] = .ok [(0, 1)] := rfl
  norm_num [NegativeSampler.call, hfe, twoCycle_weights, repeat_interleave, multinomial,
    pickIdx, show (NegativeSampler.init twoCycle 1).k = 1 from rfl]
  simp [negWeight, show inDeg twoCycle 0 = 1 from rfl, show inDeg twoCycle 1 = 1 from rfl]

/-- C9: NegativeSampler.__call__ has no side effects: a successful call
returns the sampler state (k and weight vector) and the graph exactly as
passed in, its result agrees with the pure call function, and the output
depends only on what the body reads — the stored k and weights, the call
graph's edge list, and the random source. -/
theorem negCall_frame (s : NegativeSampler) (g : Graph) (eids : List ℕ) (rng : ℕ → ℝ) :
    (∀ out, s.callS g eids rng = .ok out → out.2.1 = s ∧ out.2.2 = g
        ∧ s.call g eids rng = .ok out.1)
    ∧ (∀ (s2 : NegativeSampler) (g2 : Graph), s2.k = s.k → s2.weights = s.weights →
        g2.edges = g.edges → s2.call g2 eids rng = s.call g eids rng) := by
  constructor
  · intro out hout
    rcases hfe : g.find_edges eids with e | pairs <;>
      simp only [NegativeSampler.callS, hfe] at hout
    · exact absurd hout (by simp)
    · by_cases hk0 : s.k < 0
      · rw [if_pos hk0] at hout
        exact absurd hout (by simp)
      · rw [if_neg hk0] at hout
        rcases hmn : multinomial s.weights
            (repeat_interleave (pairs.map (fun p => p.1)) s.k.toNat).length rng with e | ds <;>
          simp only [hmn] at hout
        · exact absurd hout (by simp)
        · cases Except.ok.inj hout
          refine ⟨rfl, rfl, ?_⟩
          simp only [NegativeSampler.call, hfe, if_neg hk0, hmn]
  · intro s2 g2 hk hw he
    have hfeq : g2.find_edges eids = g.find_edges eids := by
      rw [Graph.find_edges, Graph.find_edges, he]
    simp only [NegativeSampler.call, hfeq, hk, hw]

/-- C9 witness: the frame facts instantiated on the successful concrete
call over the two-node cycle. -/
theorem negCall_frame_witness :
    ((([0], [0]), NegativeSampler.init twoCycle 1, twoCycle).2.1 = NegativeSampler.init twoCycle 1)
    ∧ ((([0], [0]), NegativeSampler.init twoCycle 1, twoCycle).2.2 = twoCycle)
    ∧ (NegativeSampler.init twoCycle 1).call twoCycle [0] (fun _ => 0)
        = .ok ((([0], [0]), NegativeSampler.init twoCycle 1, twoCycle).1) :=
  (negCall_frame (NegativeSampler.init twoCycle 1) twoCycle [0] (fun _ => 0)).1
    (([0], [0]), NegativeSampler.init twoCycle 1, twoCycle) twoCycle_callS_eval

/-- C8: with identically seeded random streams two runs of the negative
sampler coincide, as do two runs of the block builder; with differently
seeded streams both can produce different outputs, witnessed concretely. -/
theorem sampler_determinism :
    (∀ (s : NegativeSampler) (g : Graph) (eids : List ℕ) (r1 r2 : ℕ → ℝ),
        (∀ i, r1 i = r2 i) → s.call g eids r1 = s.call g eids r2)
    ∧ (∀ (ms : MultiLayerNeighborSampler) (g : Graph) (seeds : List ℕ) (r1 r2 : ℕ → ℕ),
        (∀ i, r1 i = r2 i) → ms.sample_blocks g seeds r1 = ms.sample_blocks g seeds r2)
    ∧ (∃ r1 r2 : ℕ → ℝ,
        (NegativeSampler.init twoCycle 1).call twoCycle [0] r1
          ≠ (NegativeSampler.init twoCycle 1).call twoCycle [0] r2)
    ∧ (∃ r1 r2 : ℕ → ℕ,
        (MultiLayerNeighborSampler.mk [1]).sample_blocks vee [0] r1
          ≠ (MultiLayerNeighborSampler.mk [1]).sample_blocks vee [0] r2) := by
  refine ⟨?_, ?_, ?_, ?_⟩
  · intro s g eids r1 r2 h
    rw [funext h]
  · intro ms g seeds r1 r2 h
    rw [funext h]
  · refine ⟨fun _ => 0, fun _ => (1 : ℝ) / 2, ?_⟩
    rw [twoCycle_call_eval, twoCycle_call_half]
    intro h
    exact absurd (Except.ok.inj h) (by decide)
  · refine ⟨fun _ => 0, fun _ => 1, ?_⟩
    have h1 : (MultiLayerNeighborSampler.mk [1]).sample_blocks vee [0] (fun _ => 0)
        = .ok [{ srcNodes := [0, 1], dstNodes := [0], edges := [(1, 0)] }] := rfl
    have h2 : (MultiLayerNeighborSampler.mk [1]).sample_blocks vee [0] (fun _ => 1)
        = .ok [{ srcNodes := [0, 2], dstNodes := [0], edges := [(2, 0)] }] := rfl
    rw [h1, h2]
    intro h
    exact absurd (Except.ok.inj h) (by decide)

/-- C8 witness: the negative-sampler determinism clause applied to two
identical concrete streams. -/
theorem sampler_determinism_witness :
    (NegativeSampler.init twoCycle 1).call twoCycle [0] (fun _ => 0)
      = (NegativeSampler.init twoCycle 1).call twoCycle [0] (fun _ => 0) :=
  sampler_determinism.1 (NegativeSampler.init twoCycle 1) twoCycle [0]
    (fun _ => 0) (fun _ => 0) (fun _ => rfl)

theorem sampleBlocksAux_spec (s : MultiLayerNeighborSampler) (g : Graph) (rng : ℕ → ℕ) :
    ∀ (l : ℕ) (frontier : List ℕ) (c : ℕ),
      (∀ j, j < l → validFanout (s.fanouts.getD j 0)) →
      ∃ bs c2, sampleBlocksAux s g rng l frontier c = .ok (bs, c2)
        ∧ bs.length = l
        ∧ (∀ h : bs ≠ [], (bs.getLast h).dstNodes = frontier)
        ∧ (∀ b ∈ bs, ∀ x ∈ b.dstNodes, x ∈ b.srcNodes)
        ∧ List.Chain' (fun b1 b2 => ∀ x ∈ b2.dstNodes, x ∈ b1.srcNodes) bs := by
  intro l
  induction l with
  | zero =>
    intro frontier c _
    refine ⟨[], c, rfl, rfl, fun h => absurd rfl h, ?_, List.chain'_nil⟩
    intro b hb
    simp at hb
  | succ l ih =>
    intro frontier c hvalid
    have hf : validFanout (s.fanouts.getD l 0) := hvalid l (Nat.lt_succ_self l)
    rcases hF : frontierFold g frontier (s.fanouts.getD l 0) rng c with ⟨es, c1⟩
    have hsf : s.sample_frontier l g frontier rng c = .ok (es, c1) := by
      rw [MultiLayerNeighborSampler.sample_frontier, sample_neighbors, if_pos hf, hF]
    obtain ⟨bs, c2, hrec, hlen, hlast, hsub, hchain⟩ :=
      ih ((frontier ++ es.map (fun e => e.1)).dedup) c1
        (fun j hj => hvalid j (Nat.lt_succ_of_lt hj))
    refine ⟨bs ++ [Block.mk ((frontier ++ es.map (fun e => e.1)).dedup) frontier es],
      c2, ?_, ?_, ?_, ?_, ?_⟩
    · simp only [sampleBlocksAux, hsf, hrec]
    · simp [hlen]
    · intro h
      simp only [List.getLast_concat]
    · intro b hb
      rcases List.mem_append.mp hb with h | h
      · exact hsub b h
      · rw [List.mem_singleton.mp h]
        intro x hx
        exact List.mem_dedup.mpr (List.mem_append_left _ hx)
    · refine List.Chain'.append hchain (List.chain'_singleton _) ?_
      intro b1 hb1 b2 hb2
      simp only [List.head?_cons, Option.mem_def, Option.some.injEq] at hb2
      intro x hx
      have hbsne : bs ≠ [] := by
        intro hnil
        rw [hnil] at hb1
        simp at hb1
      rw [List.getLast?_eq_getLast bs hbsne, Option.mem_def, Option.some.injEq] at hb1
      have hdst := hlast hbsne
      have hsrc := hsub (bs.getLast hbsne) (List.getLast_mem hbsne)
      rw [← hb2] at hx
      rw [← hb1]
      exact hsrc x (by rw [hdst]; exact List.mem_dedup.mpr (List.mem_append_left _ hx))

/-- C4: for every seed set and fan-out list with valid per-layer fan-outs,
the block builder succeeds and returns one block per layer in
input-to-output order: the final block's destination node set is exactly
the seed set, every block's destination nodes are contained in its own
source nodes, and each successive block's destination node set is a
subset of the prior block's source node set. -/
theorem sample_blocks_order_chain (s : MultiLayerNeighborSampler) (g : Graph)
    (seeds : List ℕ) (rng : ℕ → ℕ)
    (hvalid : ∀ j, j < s.fanouts.length → validFanout (s.fanouts.getD j 0)) :
    ∃ bs, s.sample_blocks g seeds rng = .ok bs
      ∧ bs.length = s.fanouts.length
      ∧ (∀ h : bs ≠ [], (bs.getLast h).dstNodes = seeds)
      ∧ (∀ b ∈ bs, ∀ x ∈ b.dstNodes, x ∈ b.srcNodes)
      ∧ List.Chain' (fun b1 b2 => ∀ x ∈ b2.dstNodes, x ∈ b1.srcNodes) bs := by
  obtain ⟨bs, c2, hrun, hlen, hlast, hsub, hchain⟩ :=
    sampleBlocksAux_spec s g rng s.fanouts.length seeds 0 hvalid
  refine ⟨bs, ?_, hlen, hlast, hsub, hchain⟩
  rw [MultiLayerNeighborSampler.sample_blocks, hrun]

/-- C4 witness: the order and chain facts on the five-node path with
fan-out list [2] and seed set {4}. -/
theorem sample_blocks_order_chain_witness :
    ∃ bs, (MultiLayerNeighborSampler.mk [2]).sample_blocks path5 [4] (fun _ => 0) = .ok bs
      ∧ bs.length = (MultiLayerNeighborSampler.mk [2]).fanouts.length
      ∧ (∀ h : bs ≠ [], (bs.getLast h).dstNodes = [4])
      ∧ (∀ b ∈ bs, ∀ x ∈ b.dstNodes, x ∈ b.srcNodes)
      ∧ List.Chain' (fun b1 b2 => ∀ x ∈ b2.dstNodes, x ∈ b1.srcNodes) bs :=
  sample_blocks_order_chain (MultiLayerNeighborSampler.mk [2]) path5 [4] (fun _ => 0)
    (by decide)

/-- C5: a frontier node with at most the requested (positive) fan-out's
worth of predecessors contributes exactly its full incoming-edge list —
all incoming edges, no duplicates beyond the true count — and a node with
no predecessors contributes the empty list; in both cases sampling raises
no error. -/
theorem nodeSample_small_degree (g : Graph) (v : ℕ) (f : ℤ) (rng : ℕ → ℕ) (c : ℕ) :
    (1 ≤ f → (inEdges g v).length ≤ f.toNat → nodeSample g v f rng c = (inEdges g v, c))
    ∧ (validFanout f → inEdges g v = [] → nodeSample g v f rng c = ([], c))
    ∧ (validFanout f → ∀ vs, ∃ r, sample_neighbors g vs f rng c = .ok r)
    ∧ (1 ≤ f → (inEdges g v).length ≤ f.toNat →
        sample_neighbors g [v] f rng c = .ok (inEdges g v, c)) := by
  have hall : (inEdges g v).length ≤ f.toNat → nodeSample g v f rng c = (inEdges g v, c) := by
    intro hle
    rw [nodeSample, if_pos (Or.inr hle)]
  refine ⟨fun _ hle => hall hle, ?_, ?_, ?_⟩
  · intro hf he
    rcases hf with hm1 | h1
    · rw [nodeSample, if_pos (Or.inl hm1), he]
    · rw [hall (by simp [he]), he]
  · intro hf vs
    exact ⟨_, by rw [sample_neighbors, if_pos hf]⟩
  · intro h1 hle
    rw [sample_neighbors, if_pos (show validFanout f from Or.inr h1)]
    simp [frontierFold, hall hle]

/-- C5 witness: node 4 of the five-node path has one predecessor; with
fan-out 2 the sample is exactly its single incoming edge. -/
theorem nodeSample_small_degree_witness :
    nodeSample path5 4 2 (fun _ => 0) 0 = (inEdges path5 4, 0) :=
  (nodeSample_small_degree path5 4 2 (fun _ => 0) 0).1 (by decide) (by decide)

theorem sampleBlocksAux_err (s : MultiLayerNeighborSampler) (g : Graph) (rng : ℕ → ℕ) :
    ∀ (l : ℕ) (frontier : List ℕ) (c : ℕ),
      (∃ j, j < l ∧ ¬ validFanout (s.fanouts.getD j 0)) →
      sampleBlocksAux s g rng l frontier c = .error .invalidFanout := by
  intro l
  induction l with
  | zero =>
    rintro frontier c ⟨j, hj, _⟩
    exact absurd hj (Nat.not_lt_zero j)
  | succ l ih =>
    rintro frontier c ⟨j, hj, hbad⟩
    by_cases hl : validFanout (s.fanouts.getD l 0)
    · have hjl : j < l := by
        rcases Nat.lt_succ_iff_lt_or_eq.mp hj with h | h
        · exact h
        · rw [h] at hbad
          exact absurd hl hbad
      rcases hF : frontierFold g frontier (s.fanouts.getD l 0) rng c with ⟨es, c1⟩
      have hsf : s.sample_frontier l g frontier rng c = .ok (es, c1) := by
        rw [MultiLayerNeighborSampler.sample_frontier, sample_neighbors, if_pos hl, hF]
      have hrec := ih ((frontier ++ es.map (fun e => e.1)).dedup) c1 ⟨j, hjl, hbad⟩
      simp only [sampleBlocksAux, hsf, hrec]
    · have hsf : s.sample_frontier l g frontier rng c = .error .invalidFanout := by
        rw [MultiLayerNeighborSampler.sample_frontier, sample_neighbors, if_neg hl]
      simp only [sampleBlocksAux, hsf]

/-- C6: block construction fails with an invalid-argument error whenever
some layer requests a zero or negative fan-out that is not the take-all
sentinel, and succeeds whenever every layer's fan-out is take-all or
positive. -/
theorem sample_blocks_fanout_validation (s : MultiLayerNeighborSampler) (g : Graph)
    (seeds : List ℕ) (rng : ℕ → ℕ) :
    ((∃ j, j < s.fanouts.length ∧ ¬ validFanout (s.fanouts.getD j 0)) →
        s.sample_blocks g seeds rng = .error .invalidFanout)
    ∧ ((∀ j, j < s.fanouts.length → validFanout (s.fanouts.getD j 0)) →
        ∃ bs, s.sample_blocks g seeds rng = .ok bs) := by
  constructor
  · intro hbad
    rw [MultiLayerNeighborSampler.sample_blocks,
      sampleBlocksAux_err s g rng s.fanouts.length seeds 0 hbad]
  · intro hgood
    obtain ⟨bs, c2, hrun, _⟩ := sampleBlocksAux_spec s g rng s.fanouts.length seeds 0 hgood
    exact ⟨bs, by rw [MultiLayerNeighborSampler.sample_blocks, hrun]⟩

/-- C6 witness: a fan-out list [0] makes block construction fail on the
five-node path, while the take-all list [-1] succeeds. -/
theorem sample_blocks_fanout_validation_witness :
    (MultiLayerNeighborSampler.mk [0]).sample_blocks path5 [4] (fun _ => 0)
      = .error .invalidFanout
    ∧ ∃ bs, (MultiLayerNeighborSampler.mk [-1]).sample_blocks path5 [4] (fun _ => 0) = .ok bs :=
  ⟨(sample_blocks_fanout_validation (MultiLayerNeighborSampler.mk [0]) path5 [4]
      (fun _ => 0)).1 ⟨0, by decide, by decide⟩,
    (sample_blocks_fanout_validation (MultiLayerNeighborSampler.mk [-1]) path5 [4]
      (fun _ => 0)).2 (by decide)⟩
